import Mathlib

/-!
Shallow embedding of src/sink.c (haproxy event sink management).

The registry is the global `sink_list`, modelled as a `List Sink`; a C
pointer to a sink is modelled as its index in that list.  `writev` is an
external system call: its return value (a C `ssize_t`) is passed to
`sink_write` as an explicit parameter `wres`, and the bytes handed to it
(the assembled iovec array) are returned so that theorems can speak about
the delivered payload.  Machine integers: `size_t` values are `Nat` with
wrap-around made explicit where it matters (the `sent` variable), `int`
file descriptors are `Int`.
-/

/-- Modelled from the spec: `enum sink_fmt` is declared in proto/sink.h,
which is not under src/.  The spec names exactly two formats: `RAW`
(no framing) and `SHORT` (3-byte priority header). -/
inductive SinkFmt where
  | raw
  | short
  deriving DecidableEq

/-- Modelled from the spec: `enum sink_type` is declared in proto/sink.h,
which is not under src/.  The spec names `NEW` (unspecialized), `FD`
(the only implemented specialization), and syslog / ring-buffer as
unimplemented extension variants. -/
inductive SinkType where
  | new
  | fd
  | syslog
  | buffer
  deriving DecidableEq

/-- Modelled from the spec: the default truncation budget `MAX_SYSLOG_LEN`
comes from a header not under src/; no claim depends on its value. -/
def MAX_SYSLOG_LEN : Nat := 1024

/-- `struct sink`: name, description, format, type tag, syslog fields,
truncation budget, and the FD context (`ctx.fd`, `ctx.dropped`).  The
rwlock has no observable state in this sequential model. -/
structure Sink where
  name : String
  desc : String
  fmt : SinkFmt
  type : SinkType
  syslog_facility : Nat
  syslog_minlvl : Nat
  maxlen : Nat
  fd : Int
  dropped : Nat
  deriving DecidableEq

/-- `sink_find`: walk `sink_list` from the head and return the first sink
whose name matches (its index stands for the returned pointer), or
`none` for NULL. -/
def sink_find (reg : List Sink) (name : String) : Option Nat :=
  match reg with
  | [] => none
  | s :: rest =>
    if s.name = name then some 0
    else (sink_find rest name).map (fun j => j + 1)

/-- The field values `__sink_new` stores into a freshly malloc'ed sink. -/
def sink_defaults (name desc : String) (fmt : SinkFmt) : Sink :=
  { name := name, desc := desc, fmt := fmt, type := SinkType.new,
    syslog_facility := 0, syslog_minlvl := 0, maxlen := MAX_SYSLOG_LEN,
    fd := -1, dropped := 0 }

/-- `__sink_new`: return the existing sink with that name if any, else
allocate a generic `NEW` sink and append it to the list (`LIST_ADDQ`
queues at the tail).  Allocation is modelled as always succeeding; the
malloc-failure path returns NULL and touches nothing, and no claim is
about it. -/
def sink_new_generic (reg : List Sink) (name desc : String) (fmt : SinkFmt) :
    List Sink × Option Nat :=
  match sink_find reg name with
  | some i => (reg, some i)
  | none => (reg ++ [sink_defaults name desc fmt], some reg.length)

/-- `sink_new_fd`: find-or-create, then merge perfect duplicates
(already `FD` with the same fd), reject any other specialization, and
otherwise specialize the `NEW` sink to `FD`. -/
def sink_new_fd (reg : List Sink) (name desc : String) (fmt : SinkFmt)
    (fd : Int) : List Sink × Option Nat :=
  match sink_new_generic reg name desc fmt with
  | (reg1, none) => (reg1, none)
  | (reg1, some i) =>
    match reg1[i]? with
    | none => (reg1, none)
    | some s =>
      if s.type = SinkType.fd ∧ s.fd = fd then (reg1, some i)
      else if ¬ s.type = SinkType.new then (reg1, none)
      else (reg1.set i { s with type := SinkType.fd, fd := fd }, some i)

/-- `~0` as a `size_t`: the all-ones 64-bit value. -/
def SIZE_MAX64 : Nat := 2 ^ 64 - 1

/-- The 3-byte `SHORT` header `'<'`, `'0' + syslog_minlvl`, `'>'`
built into `short_hdr[]`. -/
def short_hdr (minlvl : Nat) : List Nat := [60, 48 + minlvl, 62]

/-- The fragment loop of `sink_write` (lines 127-134): while fragments
remain and `vec < 9`, take `min(maxlen, msg->len)` bytes of the current
fragment, reduce the budget, consume one iovec slot only when that
length is non-zero, and always advance to the next fragment.  A slot is
modelled as the list of bytes it points to; the returned list of slots
is the iovec entries this loop emits, in order. -/
def sink_frag_loop (msgs : List (List Nat)) (budget : Nat) (vec : Nat) :
    List (List Nat) :=
  match msgs with
  | [] => []
  | m :: rest =>
    if vec < 9 then
      if min budget m.length = 0 then sink_frag_loop rest budget vec
      else
        m.take (min budget m.length) ::
          sink_frag_loop rest (budget - min budget m.length) (vec + 1)
    else []

/-- The local `maxlen` of `sink_write` after the decrement: the budget
is `sink->maxlen ? sink->maxlen : ~0`, minus the one byte reserved for a
possible trailing newline. -/
def sink_budget (sink : Sink) : Nat :=
  (if sink.maxlen = 0 then SIZE_MAX64 else sink.maxlen) - 1

/-- The iovec array assembled by `sink_write` before the trailing
newline: a `SHORT` sink first emits the header slot (truncated to the
budget, consuming a slot even when empty, as `vec++` is unconditional),
then the fragment loop runs with `vec = 1`; a `RAW` sink runs it with
`vec = 0`. -/
def sink_assemble (sink : Sink) (msgs : List (List Nat)) : List (List Nat) :=
  if sink.fmt = SinkFmt.short then
    (short_hdr sink.syslog_minlvl).take (min (sink_budget sink) 3) ::
      sink_frag_loop msgs (sink_budget sink - min (sink_budget sink) 3) 1
  else
    sink_frag_loop msgs (sink_budget sink) 0

/-- The final value of the local `sent` of `sink_write`: a `size_t`
initialized to 0 and assigned from `writev` only on the FD path.  The
parameter `wres` is the `ssize_t` value `writev` returns; the unsigned
conversion is the explicit `% 2^64`, so a return of -1 becomes
`2^64 - 1`. -/
def sink_sent (sink : Sink) (wres : Int) : Nat :=
  if sink.type = SinkType.fd then (wres % (2 ^ 64 : Int)).toNat else 0

/-- The iovec slots `sink_write` hands to the transport: for an `FD`
sink the assembled list plus the one-byte `"\n"` slot; no write is
issued for any other type, so nothing is sent. -/
def sink_out (sink : Sink) (msgs : List (List Nat)) : List (List Nat) :=
  if sink.type = SinkType.fd then sink_assemble sink msgs ++ [[10]] else []

/-- `sink_write`: assemble the iovec list, dispatch it on the FD path,
then account for errors: `sent <= 0` on an unsigned `sent` is
`sent == 0`, and that is the only case where `ctx.dropped` is bumped.
Returns the updated sink and the slots submitted to the transport. -/
def sink_write (sink : Sink) (msgs : List (List Nat)) (wres : Int) :
    Sink × List (List Nat) :=
  if sink_sent sink wres = 0 then
    ({ sink with dropped := sink.dropped + 1 }, sink_out sink msgs)
  else (sink, sink_out sink msgs)

/-! Concrete fixtures used by witnesses and counterexamples. -/

/-- An `FD` sink bound to an invalid descriptor, default-like fields. -/
def badFdSink : Sink :=
  { name := "bad", desc := "invalid fd", fmt := SinkFmt.raw,
    type := SinkType.fd, syslog_facility := 0, syslog_minlvl := 0,
    maxlen := 0, fd := -1, dropped := 0 }

/-- An unspecialized (`NEW`) sink as produced by `sink_new_generic`. -/
def plainNewSink : Sink := sink_defaults "n" "generic" SinkFmt.raw

/-- `plainNewSink` after specialization to fd 4. -/
def specializedNSink : Sink :=
  { plainNewSink with type := SinkType.fd, fd := 4 }

/-- An `FD` sink with `RAW` format and `maxlen = 10`. -/
def rawTenSink : Sink :=
  { name := "t", desc := "ten", fmt := SinkFmt.raw, type := SinkType.fd,
    syslog_facility := 0, syslog_minlvl := 0, maxlen := 10, fd := 1,
    dropped := 0 }

/-- A 20-byte message fragment. -/
def twentyBytes : List Nat :=
  [1, 2, 3, 4, 5, 6, 7, 8, 9, 10, 11, 12, 13, 14, 15, 16, 17, 18, 19, 20]

/-- An `FD` sink with `SHORT` format, `syslog_minlvl = 5`, unbounded. -/
def shortFiveSink : Sink :=
  { name := "s", desc := "short", fmt := SinkFmt.short, type := SinkType.fd,
    syslog_facility := 0, syslog_minlvl := 5, maxlen := 0, fd := 1,
    dropped := 0 }

/-- An `FD` sink with `RAW` format and no configured `maxlen`. -/
def rawWideSink : Sink :=
  { name := "w", desc := "wide", fmt := SinkFmt.raw, type := SinkType.fd,
    syslog_facility := 0, syslog_minlvl := 0, maxlen := 0, fd := 1,
    dropped := 0 }

/-- Nine one-byte fragments: enough to fill every non-reserved slot. -/
def nineSingles : List (List Nat) :=
  [[1], [2], [3], [4], [5], [6], [7], [8], [9]]

/-- The sink produced by creating "n" with fd 3 from a fresh name. -/
def fd3NSink : Sink :=
  { sink_defaults "n" "d" SinkFmt.raw with type := SinkType.fd, fd := 3 }

/-- A sink already specialized to fd 7. -/
def fd7Sink : Sink :=
  { name := "a", desc := "d0", fmt := SinkFmt.raw, type := SinkType.fd,
    syslog_facility := 0, syslog_minlvl := 0, maxlen := 1024, fd := 7,
    dropped := 0 }

/-- A registry holding only `fd7Sink`. -/
def regFd7 : List Sink := [fd7Sink]

/-! Helper lemmas about the fragment loop. -/

/-- Once the slot index has reached 9 the loop body never runs. -/
theorem sink_frag_loop_of_nine_le (msgs : List (List Nat)) (budget vec : Nat)
    (h : 9 ≤ vec) : sink_frag_loop msgs budget vec = [] := by
  cases msgs with
  | nil => rfl
  | cons m rest => simp [sink_frag_loop, Nat.not_lt.mpr h]

/-- With an exhausted budget every fragment is skipped. -/
theorem sink_frag_loop_budget_zero (msgs : List (List Nat)) (vec : Nat) :
    sink_frag_loop msgs 0 vec = [] := by
  induction msgs generalizing vec with
  | nil => rfl
  | cons m rest ih => simp [sink_frag_loop, ih]

/-- The loop emits at most `9 - vec` slots. -/
theorem sink_frag_loop_length_le (msgs : List (List Nat)) (budget vec : Nat) :
    (sink_frag_loop msgs budget vec).length ≤ 9 - vec := by
  induction msgs generalizing budget vec with
  | nil => simp [sink_frag_loop]
  | cons m rest ih =>
    by_cases h9 : vec < 9
    · by_cases hz : min budget m.length = 0
      · simpa [sink_frag_loop, h9, hz] using ih budget vec
      · have := ih (budget - min budget m.length) (vec + 1)
        simp only [sink_frag_loop, if_pos h9, if_neg hz, List.length_cons]
        omega
    · simp [sink_frag_loop, h9]

/-- While the budget cannot outlast the free slots, the loop is pure
budget truncation: its flattened output is the first `budget` bytes of
the concatenated fragments. -/
theorem sink_frag_loop_flatten_take (msgs : List (List Nat)) (budget vec : Nat)
    (h : budget ≤ 9 - vec) :
    (sink_frag_loop msgs budget vec).flatten = msgs.flatten.take budget := by
  induction msgs generalizing budget vec with
  | nil => simp [sink_frag_loop]
  | cons m rest ih =>
    rcases Nat.eq_zero_or_pos budget with hb | hb
    · subst hb
      simp [sink_frag_loop_budget_zero]
    · have h9 : vec < 9 := by omega
      by_cases hz : min budget m.length = 0
      · have hm : m = [] := by
          rcases Nat.min_eq_zero_iff.mp hz with h1 | h1
          · omega
          · exact List.length_eq_zero.mp h1
        subst hm
        simp only [sink_frag_loop, if_pos h9, if_pos hz, List.flatten_cons,
          List.nil_append]
        exact ih budget vec h
      · have hb0 : ¬ budget = 0 := by omega
        have hm0 : ¬ m.length = 0 := fun e => hz (by simp [e])
        have hm1 : 1 ≤ m.length := by omega
        have hrec : budget - m.length ≤ 9 - (vec + 1) := by omega
        rcases Nat.le_total budget m.length with hc | hc
        · simp only [sink_frag_loop, if_pos h9, if_neg hz, List.flatten_cons,
            List.take_append_eq_append_take,
            Nat.min_eq_left hc, Nat.sub_self, Nat.sub_eq_zero_of_le hc,
            if_neg hb0, sink_frag_loop_budget_zero, List.flatten_nil,
            List.take_zero, List.append_nil]
        · simp only [sink_frag_loop, if_pos h9, if_neg hz, List.flatten_cons,
            Nat.min_eq_right hc, if_neg hm0, List.take_length,
            ih _ _ hrec, List.take_append_eq_append_take,
            List.take_of_length_le hc]

/-- Whatever the budget and slot cap do, the flattened output is always
some prefix of the concatenated fragments. -/
theorem sink_frag_loop_flatten_take_ex (msgs : List (List Nat))
    (budget vec : Nat) :
    ∃ k, (sink_frag_loop msgs budget vec).flatten = msgs.flatten.take k := by
  induction msgs generalizing budget vec with
  | nil => exact ⟨0, by simp [sink_frag_loop]⟩
  | cons m rest ih =>
    by_cases h9 : vec < 9
    · by_cases hz : min budget m.length = 0
      · rcases Nat.min_eq_zero_iff.mp hz with h1 | h1
        · subst h1
          exact ⟨0, by simp [sink_frag_loop_budget_zero]⟩
        · have hm : m = [] := List.length_eq_zero.mp h1
          subst hm
          rcases ih budget vec with ⟨k, hk⟩
          refine ⟨k, ?_⟩
          simp only [sink_frag_loop, if_pos h9, if_pos hz, List.flatten_cons,
            List.nil_append]
          exact hk
      · have hb0 : ¬ budget = 0 := fun e => hz (by simp [e])
        have hm0 : ¬ m.length = 0 := fun e => hz (by simp [e])
        rcases Nat.le_total m.length budget with hc | hc
        · rcases ih (budget - m.length) (vec + 1) with ⟨k, hk⟩
          refine ⟨m.length + k, ?_⟩
          simp only [sink_frag_loop, if_pos h9, if_neg hz, List.flatten_cons,
            Nat.min_eq_right hc, if_neg hm0, List.take_length, hk,
            List.take_append_eq_append_take, Nat.add_sub_cancel_left,
            List.take_of_length_le (Nat.le_add_right m.length k)]
        · refine ⟨budget, ?_⟩
          simp only [sink_frag_loop, if_pos h9, if_neg hz,
            Nat.min_eq_left hc, if_neg hb0, Nat.sub_self,
            sink_frag_loop_budget_zero,
            List.flatten_cons, List.flatten_nil, List.append_nil,
            List.take_append_eq_append_take, Nat.sub_eq_zero_of_le hc,
            List.take_zero]
    · exact ⟨0, by simp [sink_frag_loop, h9]⟩

/-- Once every non-reserved slot is consumed, fragments appended after
the originals change nothing: the loop already stops at the cap. -/
theorem sink_frag_loop_append_full (msgs extra : List (List Nat))
    (budget vec : Nat)
    (h : (sink_frag_loop msgs budget vec).length = 9 - vec) :
    sink_frag_loop (msgs ++ extra) budget vec =
      sink_frag_loop msgs budget vec := by
  induction msgs generalizing budget vec with
  | nil =>
    have h9 : 9 ≤ vec := by
      simp only [sink_frag_loop, List.length_nil] at h
      omega
    simp [sink_frag_loop_of_nine_le _ _ _ h9]
  | cons m rest ih =>
    rw [List.cons_append]
    by_cases h9 : vec < 9
    · by_cases hz : min budget m.length = 0
      · simp only [sink_frag_loop, if_pos h9, if_pos hz] at h ⊢
        exact ih budget vec h
      · simp only [sink_frag_loop, if_pos h9, if_neg hz,
          List.length_cons] at h ⊢
        have h8 : (sink_frag_loop rest (budget - min budget m.length)
            (vec + 1)).length = 9 - (vec + 1) := by omega
        rw [ih _ _ h8]
    · rw [sink_frag_loop_of_nine_le _ _ _ (by omega),
        sink_frag_loop_of_nine_le _ _ _ (by omega)]

/-- A full pre-newline iovec list (9 slots) makes `sink_assemble`
ignore appended fragments entirely. -/
theorem sink_assemble_append_full (sink : Sink) (msgs extra : List (List Nat))
    (h : (sink_assemble sink msgs).length = 9) :
    sink_assemble sink (msgs ++ extra) = sink_assemble sink msgs := by
  by_cases hf : sink.fmt = SinkFmt.short
  · simp only [sink_assemble, if_pos hf, List.length_cons] at h ⊢
    congr 1
    apply sink_frag_loop_append_full
    omega
  · simp only [sink_assemble, if_neg hf] at h ⊢
    apply sink_frag_loop_append_full
    omega

/-! Helper lemmas about the registry operations. -/

/-- A NULL `sink_find` means no sink in the list carries the name. -/
theorem sink_find_eq_none (reg : List Sink) (name : String) :
    sink_find reg name = none ↔ ∀ s ∈ reg, ¬ s.name = name := by
  induction reg with
  | nil => simp [sink_find]
  | cons s rest ih =>
    by_cases hs : s.name = name
    · simp [sink_find, hs]
    · simp [sink_find, hs, ih]

/-- A successful `sink_find` points at a sink with the looked-up name. -/
theorem sink_find_some (reg : List Sink) (name : String) (i : Nat)
    (h : sink_find reg name = some i) :
    ∃ s, reg[i]? = some s ∧ s.name = name := by
  induction reg generalizing i with
  | nil => simp [sink_find] at h
  | cons s rest ih =>
    by_cases hs : s.name = name
    · simp only [sink_find, if_pos hs, Option.some.injEq] at h
      subst h
      exact ⟨s, by simp, hs⟩
    · simp only [sink_find, if_neg hs, Option.map_eq_some'] at h
      rcases h with ⟨j, hj, rfl⟩
      rcases ih j hj with ⟨t, ht, hn⟩
      exact ⟨t, by simpa using ht, hn⟩

/-- Appending a sink with the looked-up name to a list that lacks it
makes `sink_find` return the appended position. -/
theorem sink_find_append_of_none (reg : List Sink) (t : Sink) (name : String)
    (h : sink_find reg name = none) (ht : t.name = name) :
    sink_find (reg ++ [t]) name = some reg.length := by
  induction reg with
  | nil => simp [sink_find, ht]
  | cons s rest ih =>
    have hs : ¬ s.name = name := by
      intro e
      simp [sink_find, e] at h
    have hr : sink_find rest name = none := by
      simpa [sink_find, hs] using h
    simp [sink_find, hs, ih hr]

/-- `sink_find` only looks at names. -/
theorem sink_find_map_name_eq (reg : List Sink) (name : String) :
    ∀ reg2 : List Sink, reg.map Sink.name = reg2.map Sink.name →
      sink_find reg name = sink_find reg2 name := by
  induction reg with
  | nil =>
    intro reg2 h
    cases reg2 with
    | nil => rfl
    | cons s2 rest2 => simp at h
  | cons s rest ih =>
    intro reg2 h
    cases reg2 with
    | nil => simp at h
    | cons s2 rest2 =>
      simp only [List.map_cons, List.cons.injEq] at h
      rw [sink_find, sink_find, h.1, ih rest2 h.2]

/-- Overwriting one entry with an element that agrees under `f` leaves
the mapped list unchanged. -/
theorem list_map_set_same {α β : Type} (l : List α) (i : Nat) (a b : α)
    (f : α → β) (hget : l[i]? = some a) (hf : f b = f a) :
    (l.set i b).map f = l.map f := by
  induction l generalizing i with
  | nil => simp at hget
  | cons x rest ih =>
    cases i with
    | zero =>
      simp only [List.getElem?_cons_zero, Option.some.injEq] at hget
      subst hget
      simp [hf]
    | succ j =>
      simp only [List.getElem?_cons_succ] at hget
      simp [ih j hget]

/-- Setting the position just past a list, on the list extended with one
element, replaces that element. -/
theorem list_set_append_len {α : Type} (l : List α) (a b : α) :
    (l ++ [a]).set l.length b = l ++ [b] := by
  induction l with
  | nil => rfl
  | cons x rest ih => simp [ih]

/-- Reading back an overwritten position. -/
theorem list_getElem_set_self {α : Type} (l : List α) (i : Nat) (a b : α)
    (h : l[i]? = some a) : (l.set i b)[i]? = some b := by
  induction l generalizing i with
  | nil => simp at h
  | cons x rest ih =>
    cases i with
    | zero => simp
    | succ j =>
      simp only [List.getElem?_cons_succ] at h
      simpa using ih j h

/-- Reading the element appended at the end of a list. -/
theorem list_getElem_append_len {α : Type} (l : List α) (a : α) :
    (l ++ [a])[l.length]? = some a := by
  induction l with
  | nil => rfl
  | cons x rest ih => simp [ih]

/-- What a successful `sink_new_fd` guarantees: the returned index is
where `sink_find` now locates the name, and the sink there is
specialized to `FD` with the requested descriptor. -/
theorem sink_new_fd_post (reg reg2 : List Sink) (name desc : String)
    (fmt : SinkFmt) (fd : Int) (i : Nat)
    (h : sink_new_fd reg name desc fmt fd = (reg2, some i)) :
    sink_find reg2 name = some i ∧
      ∃ s, reg2[i]? = some s ∧ s.type = SinkType.fd ∧ s.fd = fd ∧
        s.name = name := by
  cases hfind : sink_find reg name with
  | some j =>
    rcases sink_find_some reg name j hfind with ⟨s, hget, hname⟩
    simp only [sink_new_fd, sink_new_generic, hfind, hget] at h
    by_cases hdup : s.type = SinkType.fd ∧ s.fd = fd
    · rw [if_pos hdup, Prod.mk.injEq, Option.some.injEq] at h
      obtain ⟨rfl, rfl⟩ := h
      exact ⟨hfind, s, hget, hdup.1, hdup.2, hname⟩
    · rw [if_neg hdup] at h
      by_cases hnew : s.type = SinkType.new
      · rw [if_neg (not_not_intro hnew), Prod.mk.injEq,
          Option.some.injEq] at h
        obtain ⟨rfl, rfl⟩ := h
        have hmap := list_map_set_same reg j s { s with type := SinkType.fd, fd := fd } Sink.name hget rfl
        refine ⟨(sink_find_map_name_eq _ name reg hmap).trans hfind,
          _, list_getElem_set_self reg j s _ hget, rfl, rfl, hname⟩
      · rw [if_pos hnew, Prod.mk.injEq] at h
        exact absurd h.2 (by simp)
  | none =>
    simp only [sink_new_fd, sink_new_generic, hfind,
      list_getElem_append_len, sink_defaults] at h
    rw [list_set_append_len] at h
    have hc1 : ¬ (SinkType.new = SinkType.fd ∧ (-1 : Int) = fd) := by simp
    have hc2 : ¬ ¬ True := by simp
    rw [if_neg hc1, if_neg hc2] at h
    rw [Prod.mk.injEq, Option.some.injEq] at h
    obtain ⟨rfl, rfl⟩ := h
    refine ⟨sink_find_append_of_none reg _ name hfind rfl,
      _, list_getElem_append_len reg _, rfl, rfl, rfl⟩

/-- Overwriting one position leaves the others unchanged. -/
theorem list_getElem_set_other {α : Type} (l : List α) (i j : Nat) (b : α)
    (h : ¬ i = j) : (l.set i b)[j]? = l[j]? := by
  induction l generalizing i j with
  | nil => simp
  | cons x rest ih =>
    cases i with
    | zero =>
      cases j with
      | zero => exact absurd rfl h
      | succ j2 => simp
    | succ i2 =>
      cases j with
      | zero => simp
      | succ j2 =>
        simp only [List.set_cons_succ, List.getElem?_cons_succ]
        exact ih i2 j2 (fun e => h (by rw [e]))

/-- The transport sees the same slots on both accounting branches. -/
theorem sink_write_snd (sink : Sink) (msgs : List (List Nat)) (wres : Int) :
    (sink_write sink msgs wres).snd = sink_out sink msgs := by
  unfold sink_write
  split <;> rfl

/-- Complete case analysis of `sink_new_fd`: a fresh name is created
and specialized at the tail; an existing name is merged, rejected, or
specialized in place according to its current state. -/
theorem sink_new_fd_cases (reg : List Sink) (name desc : String)
    (fmt : SinkFmt) (fd : Int) :
    (∃ d, sink_find reg name = none ∧
      d = { sink_defaults name desc fmt with type := SinkType.fd, fd := fd } ∧
      sink_new_fd reg name desc fmt fd = (reg ++ [d], some reg.length)) ∨
    (∃ i s, sink_find reg name = some i ∧ reg[i]? = some s ∧
      ((s.type = SinkType.fd ∧ s.fd = fd ∧
          sink_new_fd reg name desc fmt fd = (reg, some i)) ∨
       (¬ s.type = SinkType.new ∧ ¬ (s.type = SinkType.fd ∧ s.fd = fd) ∧
          sink_new_fd reg name desc fmt fd = (reg, none)) ∨
       (s.type = SinkType.new ∧
          sink_new_fd reg name desc fmt fd =
            (reg.set i { s with type := SinkType.fd, fd := fd }, some i)))) := by
  cases hfind : sink_find reg name with
  | none =>
    left
    refine ⟨_, rfl, rfl, ?_⟩
    simp only [sink_new_fd, sink_new_generic, hfind, list_getElem_append_len]
    have hc1 : ¬ ((sink_defaults name desc fmt).type = SinkType.fd ∧
        (sink_defaults name desc fmt).fd = fd) := by
      simp [sink_defaults]
    have hc2 : ¬ ¬ (sink_defaults name desc fmt).type = SinkType.new := by
      simp [sink_defaults]
    rw [if_neg hc1, if_neg hc2, list_set_append_len]
  | some i =>
    right
    rcases sink_find_some reg name i hfind with ⟨s, hget, hname⟩
    refine ⟨i, s, rfl, hget, ?_⟩
    by_cases hdup : s.type = SinkType.fd ∧ s.fd = fd
    · refine Or.inl ⟨hdup.1, hdup.2, ?_⟩
      simp only [sink_new_fd, sink_new_generic, hfind, hget, if_pos hdup]
    · by_cases hnew : s.type = SinkType.new
      · refine Or.inr (Or.inr ⟨hnew, ?_⟩)
        simp only [sink_new_fd, sink_new_generic, hfind, hget, if_neg hdup,
          if_neg (not_not_intro hnew)]
      · refine Or.inr (Or.inl ⟨hnew, hdup, ?_⟩)
        simp only [sink_new_fd, sink_new_generic, hfind, hget, if_neg hdup,
          if_pos hnew]

/-- C1: the failure-accounting claim fails on the code.  At the failing
input — an `FD` sink bound to an invalid descriptor, where `writev`
returns -1 — the dropped counter is left unchanged: `sent` is a
`size_t`, so `sent <= 0` is an unsigned comparison that misses the -1
hard-failure result (it converts to `2^64 - 1`), while the claim says
every non-strictly-positive write result increments the counter by
one. -/
theorem C1_hard_failure_not_counted :
    (sink_write badFdSink [[104, 105]] (-1)).fst.dropped
      = badFdSink.dropped := by
  decide

/-- C2 counterexample: a single `sink_write` call on a concrete `NEW`
sink changes the dropped counter, refuting the claim that the silent
drop comes with no accounting. -/
theorem C2_counterexample :
    ¬ (sink_write plainNewSink [[104]] 1).fst.dropped
        = plainNewSink.dropped := by
  decide

/-- C2 (amended): for every sink of type `NEW`, `sink_write` performs
no transport action (no iovec list is submitted), but the dropped
counter is incremented by one on every call, for any fragment list:
`sent` stays 0, so the unconditional post-dispatch accounting fires. -/
theorem C2_new_sink_drop_accounted (sink : Sink) (msgs : List (List Nat))
    (wres : Int) (h : sink.type = SinkType.new) :
    sink_write sink msgs wres
      = ({ sink with dropped := sink.dropped + 1 }, []) := by
  simp [sink_write, sink_sent, sink_out, h]

/-- C2 witness: the amended statement at a concrete `NEW` sink. -/
theorem C2_new_sink_drop_accounted_witness :
    sink_write plainNewSink [[104]] 3
      = ({ plainNewSink with dropped := plainNewSink.dropped + 1 }, []) :=
  C2_new_sink_drop_accounted plainNewSink [[104]] 3 rfl

/-- C4: a `sink_new_fd` call that succeeded makes an identical call
(same name, same handle) return the very same registry slot and leave
the registry — including every sink's fields and counters — untouched:
creation is idempotent for perfect duplicates. -/
theorem C4_idempotent_duplicate (reg reg1 : List Sink) (name desc : String)
    (fmt : SinkFmt) (fd : Int) (i : Nat)
    (h : sink_new_fd reg name desc fmt fd = (reg1, some i)) :
    sink_new_fd reg1 name desc fmt fd = (reg1, some i) := by
  rcases sink_new_fd_post reg reg1 name desc fmt fd i h with
    ⟨hfind, s, hget, htype, hfd, hname⟩
  simp only [sink_new_fd, sink_new_generic, hfind, hget,
    if_pos (And.intro htype hfd)]

/-- C4 witness: creating "n" on fd 3 twice from the empty registry. -/
theorem C4_idempotent_duplicate_witness :
    sink_new_fd [fd3NSink] "n" "d" SinkFmt.raw 3 = ([fd3NSink], some 0) :=
  C4_idempotent_duplicate [] [fd3NSink] "n" "d" SinkFmt.raw 3 0 (by decide)

/-- C9: for every sink, fragment list and write result, the assembled
iovec list stays within the 10-slot array: at most 9 slots are consumed
by the header and the fragments combined (the loop bound is `vec < 9`
and the header adds one slot at `vec = 0`), so with the trailing
newline slot the vectored write is passed at most 10 slots. -/
theorem C9_slot_bounds (sink : Sink) (msgs : List (List Nat)) (wres : Int) :
    (sink_assemble sink msgs).length ≤ 9 ∧
      (sink_write sink msgs wres).snd.length ≤ 10 := by
  have ha : (sink_assemble sink msgs).length ≤ 9 := by
    unfold sink_assemble
    by_cases hf : sink.fmt = SinkFmt.short
    · rw [if_pos hf]
      have hle := sink_frag_loop_length_le msgs
        (sink_budget sink - min (sink_budget sink) 3) 1
      simp only [List.length_cons]
      omega
    · rw [if_neg hf]
      have hle := sink_frag_loop_length_le msgs (sink_budget sink) 0
      omega
  refine ⟨ha, ?_⟩
  rw [sink_write_snd]
  unfold sink_out
  by_cases ht : sink.type = SinkType.fd
  · rw [if_pos ht]
    simp only [List.length_append, List.length_cons, List.length_nil]
    omega
  · rw [if_neg ht]
    simp

/-- C5: for every `FD` sink with format `RAW` and `maxlen = 10`, and
every fragment list totaling 20 bytes, the payload handed to the
vectored write is exactly the first 9 content bytes of the concatenated
fragments followed by one newline byte — 10 bytes in all: one byte of
the budget is reserved for the newline and the rest is silently
truncated. -/
theorem C5_raw_maxlen10_truncation (sink : Sink) (msgs : List (List Nat))
    (wres : Int) (ht : sink.type = SinkType.fd) (hf : sink.fmt = SinkFmt.raw)
    (hm : sink.maxlen = 10) (hl : (msgs.map List.length).sum = 20) :
    (sink_write sink msgs wres).snd.flatten = msgs.flatten.take 9 ++ [10] ∧
      (sink_write sink msgs wres).snd.flatten.length = 10 := by
  have hb : sink_budget sink = 9 := by simp [sink_budget, hm]
  have hfr : ¬ sink.fmt = SinkFmt.short := by rw [hf]; simp
  have hsnd : (sink_write sink msgs wres).snd
      = sink_frag_loop msgs 9 0 ++ [[10]] := by
    rw [sink_write_snd]
    unfold sink_out
    rw [if_pos ht]
    unfold sink_assemble
    rw [if_neg hfr, hb]
  have hfl : (sink_write sink msgs wres).snd.flatten
      = msgs.flatten.take 9 ++ [10] := by
    rw [hsnd, List.flatten_append,
      sink_frag_loop_flatten_take msgs 9 0 (by norm_num)]
    simp
  refine ⟨hfl, ?_⟩
  rw [hfl]
  have h20 : msgs.flatten.length = 20 := by
    rw [List.length_flatten]
    exact hl
  simp [List.length_take, h20]

/-- C5 witness: one 20-byte fragment through a `maxlen = 10` raw FD
sink. -/
theorem C5_raw_maxlen10_truncation_witness :
    (sink_write rawTenSink [twentyBytes] 5).snd.flatten
        = ([twentyBytes] : List (List Nat)).flatten.take 9 ++ [10] ∧
      (sink_write rawTenSink [twentyBytes] 5).snd.flatten.length = 10 :=
  C5_raw_maxlen10_truncation rawTenSink [twentyBytes] 5 rfl rfl rfl
    (by decide)

/-- C6: for every `FD` sink with format `SHORT`, `syslog_minlvl = 5`
and `maxlen` either 0 (unbounded) or at least 4, the payload handed to
the vectored write starts with the 3 header bytes `<5>`, continues with
a (possibly truncated) prefix of the concatenated fragments, and ends
with the trailing newline byte. -/
theorem C6_short_header_framing (sink : Sink) (msgs : List (List Nat))
    (wres : Int) (ht : sink.type = SinkType.fd)
    (hf : sink.fmt = SinkFmt.short) (hlvl : sink.syslog_minlvl = 5)
    (hm : sink.maxlen = 0 ∨ 4 ≤ sink.maxlen) :
    ∃ k, (sink_write sink msgs wres).snd.flatten
        = [60, 53, 62] ++ msgs.flatten.take k ++ [10] := by
  have hb3 : 3 ≤ sink_budget sink := by
    unfold sink_budget
    rcases hm with h0 | h4
    · rw [if_pos h0]
      norm_num [SIZE_MAX64]
    · have hnz : ¬ sink.maxlen = 0 := by omega
      rw [if_neg hnz]
      omega
  have hmin : min (sink_budget sink) 3 = 3 := Nat.min_eq_right hb3
  rcases sink_frag_loop_flatten_take_ex msgs (sink_budget sink - 3) 1 with
    ⟨k, hk⟩
  refine ⟨k, ?_⟩
  have hhdr : (short_hdr 5).take 3 = [60, 53, 62] := by decide
  rw [sink_write_snd]
  unfold sink_out
  rw [if_pos ht]
  unfold sink_assemble
  rw [if_pos hf, hmin, hlvl, hhdr]
  simp only [List.flatten_append, List.flatten_cons, List.flatten_nil,
    List.append_nil, hk]

/-- C6 witness: a two-byte fragment through the unbounded SHORT sink
with minimum level 5. -/
theorem C6_short_header_framing_witness :
    ∃ k, (sink_write shortFiveSink [[72, 73]] 6).snd.flatten
        = [60, 53, 62] ++ ([[72, 73]] : List (List Nat)).flatten.take k
            ++ [10] :=
  C6_short_header_framing shortFiveSink [[72, 73]] 6 rfl rfl rfl
    (Or.inl rfl)

/-- C7: fragments beyond the bounded scatter-gather capacity are
silently omitted with no error — once the assembled list has filled all
9 non-reserved slots, appending further fragments changes neither the
submitted slots nor the sink returned by `sink_write` — and a fragment
whose effective length is zero (empty fragment, or exhausted budget)
consumes no iovec slot while the loop still advances to the next
fragment. -/
theorem C7_capacity_and_zero_skip :
    (∀ (sink : Sink) (msgs extra : List (List Nat)) (wres : Int),
      (sink_assemble sink msgs).length = 9 →
      sink_write sink (msgs ++ extra) wres = sink_write sink msgs wres) ∧
    (∀ (m : List Nat) (rest : List (List Nat)) (budget vec : Nat),
      min budget m.length = 0 →
      sink_frag_loop (m :: rest) budget vec
        = sink_frag_loop rest budget vec) := by
  constructor
  · intro sink msgs extra wres h
    have hout : sink_out sink (msgs ++ extra) = sink_out sink msgs := by
      unfold sink_out
      rw [sink_assemble_append_full sink msgs extra h]
    unfold sink_write
    rw [hout]
  · intro m rest budget vec hz
    by_cases h9 : vec < 9
    · simp only [sink_frag_loop, if_pos h9, if_pos hz]
    · rw [sink_frag_loop_of_nine_le _ _ _ (by omega),
        sink_frag_loop_of_nine_le _ _ _ (by omega)]

/-- C7 witness: nine one-byte fragments fill the raw capacity, so a
tenth fragment is dropped; and an empty fragment consumes no slot. -/
theorem C7_capacity_and_zero_skip_witness :
    sink_write rawWideSink (nineSingles ++ [[99]]) 1
        = sink_write rawWideSink nineSingles 1 ∧
      sink_frag_loop ([[], [3]] : List (List Nat)) 5 0
        = sink_frag_loop [[3]] 5 0 :=
  ⟨C7_capacity_and_zero_skip.1 rawWideSink nineSingles [[99]] 1 (by decide),
   C7_capacity_and_zero_skip.2 [] [[3]] 5 0 (by decide)⟩

/-- C3: a create-or-get on a name bound to an incompatibly specialized
sink (already `FD` with another handle, or any non-`NEW` type other
than a matching `FD`) returns NULL and leaves the registry — hence the
existing sink's type, handle and format — untouched; and in full
generality a registered sink either survives a `sink_new_fd` call
unchanged or moves from `NEW` to `FD` with the requested handle, so a
sink's type transitions `NEW → FD` at most once and is never
re-specialized. -/
theorem C3_incompatible_rejected :
    (∀ (reg : List Sink) (name desc : String) (fmt : SinkFmt) (fd : Int)
        (i : Nat) (s : Sink),
      sink_find reg name = some i → reg[i]? = some s →
      ¬ s.type = SinkType.new → ¬ (s.type = SinkType.fd ∧ s.fd = fd) →
      sink_new_fd reg name desc fmt fd = (reg, none)) ∧
    (∀ (reg reg2 : List Sink) (name desc : String) (fmt : SinkFmt)
        (fd : Int) (r : Option Nat) (j : Nat) (t t2 : Sink),
      sink_new_fd reg name desc fmt fd = (reg2, r) →
      reg[j]? = some t → reg2[j]? = some t2 →
      t2 = t ∨ (t.type = SinkType.new ∧
        t2 = { t with type := SinkType.fd, fd := fd })) := by
  constructor
  · intro reg name desc fmt fd i s hfind hget h1 h2
    simp only [sink_new_fd, sink_new_generic, hfind, hget, if_neg h2,
      if_pos h1]
  · intro reg reg2 name desc fmt fd r j t t2 heq hget hget2
    rcases sink_new_fd_cases reg name desc fmt fd with
      ⟨d, hfind, hd, hres⟩ | ⟨i, s, hfind, hgets, hcase⟩
    · rw [heq, Prod.mk.injEq] at hres
      obtain ⟨h1, h2⟩ := hres
      subst h1
      have hj : j < reg.length := by
        rcases List.getElem?_eq_some.mp hget with ⟨hlt, _⟩
        exact hlt
      rw [List.getElem?_append_left hj, hget] at hget2
      injection hget2 with he
      exact Or.inl he.symm
    · rcases hcase with ⟨ha, hb, hres⟩ | ⟨ha, hb, hres⟩ | ⟨ha, hres⟩
      · rw [heq, Prod.mk.injEq] at hres
        obtain ⟨h1, h2⟩ := hres
        subst h1
        rw [hget] at hget2
        injection hget2 with he
        exact Or.inl he.symm
      · rw [heq, Prod.mk.injEq] at hres
        obtain ⟨h1, h2⟩ := hres
        subst h1
        rw [hget] at hget2
        injection hget2 with he
        exact Or.inl he.symm
      · rw [heq, Prod.mk.injEq] at hres
        obtain ⟨h1, h2⟩ := hres
        subst h1
        by_cases hji : j = i
        · subst hji
          rw [hget] at hgets
          injection hgets with hts
          subst hts
          rw [list_getElem_set_self reg j t _ hget] at hget2
          injection hget2 with ht2
          exact Or.inr ⟨ha, ht2.symm⟩
        · rw [list_getElem_set_other reg i j _ (fun e => hji e.symm),
            hget] at hget2
          injection hget2 with he
          exact Or.inl he.symm

/-- C3 witness: creating "a" with fd 9 against a registry whose "a" is
already bound to fd 7 is rejected and changes nothing; and specializing
the `NEW` sink "n" is the one permitted transition. -/
theorem C3_incompatible_rejected_witness :
    sink_new_fd regFd7 "a" "x" SinkFmt.raw 9 = (regFd7, none) ∧
      (specializedNSink = plainNewSink ∨
        (plainNewSink.type = SinkType.new ∧
          specializedNSink
            = { plainNewSink with type := SinkType.fd, fd := 4 })) :=
  ⟨C3_incompatible_rejected.1 regFd7 "a" "x" SinkFmt.raw 9 0 fd7Sink
      (by decide) (by decide) (by decide) (by decide),
   C3_incompatible_rejected.2 [plainNewSink] [specializedNSink] "n" "d2"
      SinkFmt.short 4 (some 0) 0 plainNewSink specializedNSink
      (by decide) (by decide) (by decide)⟩

/-- C8: after a successful create-or-get returning slot `i` for a name,
`sink_find` on that name returns exactly `i` — the identical reference —
and if the registry held no duplicate names before the call it holds
none after, so no two distinct sinks ever share a name. -/
theorem C8_find_after_create (reg reg2 : List Sink) (name desc : String)
    (fmt : SinkFmt) (fd : Int) (i : Nat)
    (hnodup : (reg.map Sink.name).Nodup)
    (h : sink_new_fd reg name desc fmt fd = (reg2, some i)) :
    sink_find reg2 name = some i ∧ (reg2.map Sink.name).Nodup := by
  refine ⟨(sink_new_fd_post reg reg2 name desc fmt fd i h).1, ?_⟩
  rcases sink_new_fd_cases reg name desc fmt fd with
    ⟨d, hfind, hd, hres⟩ | ⟨j, s, hfind, hgets, hcase⟩
  · rw [h, Prod.mk.injEq] at hres
    obtain ⟨h1, h2⟩ := hres
    subst h1
    subst hd
    rw [List.map_append, List.nodup_append]
    refine ⟨hnodup, List.nodup_singleton _, ?_⟩
    intro a ha hb
    rcases List.mem_map.mp ha with ⟨t, ht, rfl⟩
    have hnn := (sink_find_eq_none reg name).mp hfind t ht
    simp only [List.map_cons, List.map_nil, List.mem_singleton,
      sink_defaults] at hb
    exact hnn hb
  · rcases hcase with ⟨ha, hb2, hres⟩ | ⟨ha, hb2, hres⟩ | ⟨ha, hres⟩
    · rw [h, Prod.mk.injEq] at hres
      obtain ⟨h1, h2⟩ := hres
      subst h1
      exact hnodup
    · rw [h, Prod.mk.injEq] at hres
      exact Option.noConfusion hres.2
    · rw [h, Prod.mk.injEq] at hres
      obtain ⟨h1, h2⟩ := hres
      subst h1
      rw [list_map_set_same reg j s { s with type := SinkType.fd, fd := fd } Sink.name hgets rfl]
      exact hnodup

/-- C8 witness: creating "n" in the empty registry, then finding it. -/
theorem C8_find_after_create_witness :
    sink_find [fd3NSink] "n" = some 0 ∧
      (([fd3NSink] : List Sink).map Sink.name).Nodup :=
  C8_find_after_create [] [fd3NSink] "n" "d" SinkFmt.raw 3 0 (by simp)
    (by decide)

/-- C10: when the requested name already exists in the registry, the
description and format arguments of `sink_new_fd` are silently ignored:
every sink — in particular the one returned, on the idempotent path or
on specialization of a `NEW` sink — keeps the description and format it
was first created with. -/
theorem C10_desc_fmt_ignored (reg : List Sink) (name desc2 : String)
    (fmt2 : SinkFmt) (fd : Int) (hex : ¬ sink_find reg name = none) :
    ((sink_new_fd reg name desc2 fmt2 fd).fst).map Sink.desc
        = reg.map Sink.desc ∧
      ((sink_new_fd reg name desc2 fmt2 fd).fst).map Sink.fmt
        = reg.map Sink.fmt := by
  rcases sink_new_fd_cases reg name desc2 fmt2 fd with
    ⟨d, hfind, hd, hres⟩ | ⟨i, s, hfind, hgets, hcase⟩
  · exact absurd hfind hex
  · rcases hcase with ⟨ha, hb, hres⟩ | ⟨ha, hb, hres⟩ | ⟨ha, hres⟩
    · rw [hres]
      exact ⟨rfl, rfl⟩
    · rw [hres]
      exact ⟨rfl, rfl⟩
    · rw [hres]
      exact ⟨list_map_set_same reg i s _ Sink.desc hgets rfl,
        list_map_set_same reg i s _ Sink.fmt hgets rfl⟩

/-- C10 witness: re-creating "n" with a different description and
format leaves the stored description and format untouched. -/
theorem C10_desc_fmt_ignored_witness :
    ((sink_new_fd [plainNewSink] "n" "other" SinkFmt.short 4).fst).map
        Sink.desc = ([plainNewSink] : List Sink).map Sink.desc ∧
      ((sink_new_fd [plainNewSink] "n" "other" SinkFmt.short 4).fst).map
        Sink.fmt = ([plainNewSink] : List Sink).map Sink.fmt :=
  C10_desc_fmt_ignored [plainNewSink] "n" "other" SinkFmt.short 4
    (by decide)
